import Mathlib

/-!
Verification of `src/format-doc/scripts/bootstrap_format_doc.py`.

The script is a deterministic tree-walk plus text extraction and templated
rendering.  We embed its pure core shallowly: Python strings become `String`
(a wrapper around `List Char`), Python lists become `List`, `pathlib` name
operations (`Path.stem`, `Path.suffix`) are reimplemented from the pathlib
rules the script relies on, and the filesystem seen by the tree walker is an
explicit tree value.  The regular-expression extraction phase of
`infer_inputs`/`infer_outputs` (lines 272-352) calls Python's `re` engine;
where a claim only depends on what that phase returned, the returned token
list is a parameter of the embedded definition and the surrounding logic is
embedded faithfully.

Python's `str.lower`, `str.strip` and `\s` are Unicode-aware; the embedding
uses ASCII case-mapping (`Char.toLower`) and the standard Python whitespace
set, which agree with the originals on every character the script's tags,
templates and defaults use.
-/

set_option maxRecDepth 8192

/-- Does `l` start with `p`?  (List-level `startswith`.) -/
def listStartsWith : List Char → List Char → Bool
  | [], _ => true
  | _ :: _, [] => false
  | a :: as, b :: bs => if a = b then listStartsWith as bs else false

/-- Python `s.startswith(p)`. -/
def strStartsWith (s p : String) : Bool := listStartsWith p.data s.data

/-- Python `s.endswith(p)`. -/
def strEndsWith (s p : String) : Bool := listStartsWith p.data.reverse s.data.reverse

/-- Does `l` contain `sub` as a contiguous sublist?  (Python `sub in s`.) -/
def listContainsSub (sub : List Char) : List Char → Bool
  | [] => listStartsWith sub []
  | c :: t => listStartsWith sub (c :: t) || listContainsSub sub t

/-- Python `sub in s` on strings. -/
def strContainsSub (s sub : String) : Bool := listContainsSub sub.data s.data

/-- ASCII case-mapping stand-in for Python `str.lower`. -/
def pyLower (s : String) : String := String.mk (s.data.map Char.toLower)

/-- The line-boundary characters recognised by Python `str.splitlines`. -/
def pyLineBreak (c : Char) : Bool :=
  c = '\n' || c = '\r' || c = '\x0b' || c = '\x0c' || c = '\x1c' ||
    c = '\x1d' || c = '\x1e' || c = '\x85' || c = '\u2028' || c = '\u2029'

/-- Worker for `splitlines` (line boundaries dropped). `acc` holds the
current line reversed; a `"\r\n"` pair counts as a single boundary. -/
def slGo : List Char → List Char → List (List Char)
  | [], acc => if acc.isEmpty then [] else [acc.reverse]
  | c :: rest, acc =>
    if pyLineBreak c then
      match rest with
      | [] => [acc.reverse]
      | c2 :: rest2 =>
        if c = '\r' ∧ c2 = '\n' then acc.reverse :: slGo rest2 []
        else acc.reverse :: slGo (c2 :: rest2) []
    else slGo rest (c :: acc)

/-- Python `content.splitlines()`. -/
def splitlines (s : String) : List String := (slGo s.data []).map String.mk

/-- Worker for `splitlines(keepends=True)`. -/
def slkGo : List Char → List Char → List (List Char)
  | [], acc => if acc.isEmpty then [] else [acc.reverse]
  | c :: rest, acc =>
    if pyLineBreak c then
      match rest with
      | [] => [acc.reverse ++ [c]]
      | c2 :: rest2 =>
        if c = '\r' ∧ c2 = '\n' then (acc.reverse ++ ['\r', '\n']) :: slkGo rest2 []
        else (acc.reverse ++ [c]) :: slkGo (c2 :: rest2) []
    else slkGo rest (c :: acc)

/-- Python `content.splitlines(keepends=True)`. -/
def splitlinesKeepends (s : String) : List String := (slkGo s.data []).map String.mk

/-- Python `sep.join(parts)`. -/
def pyJoin (sep : String) : List String → String
  | [] => ""
  | a :: rest => rest.foldl (fun acc x => acc ++ sep ++ x) a

/-- Python `"".join(parts)`. -/
def pyConcat (parts : List String) : String := String.mk (parts.map String.data).flatten

/-- Line 50 of the script. -/
def REQUIRED_HEADER_TAGS : List String := ["@input", "@output", "@position"]

/-- Line 51 of the script. -/
def SYNC_TAGS : List String := ["@doc-sync", "@auto-doc"]

/-- The lowered text of the first `maxHeaderLines` lines, as built on
line 233 of the script: `"\n".join(content.splitlines()[:max_header_lines]).lower()`. -/
def headerSnippet (content : String) (maxHeaderLines : Nat) : String :=
  pyLower (pyJoin "\n" ((splitlines content).take maxHeaderLines))

/-- Lines 232-238 of the script.  The two early-`return False` branches are
the conjunction below. -/
def has_complete_header (content : String) (maxHeaderLines : Nat) : Bool :=
  let snippet := headerSnippet content maxHeaderLines
  REQUIRED_HEADER_TAGS.all (fun tag => strContainsSub snippet tag) &&
    SYNC_TAGS.any (fun tag => strContainsSub snippet tag)

/-- Index of the last `'.'` of `cs`, counted from the end (`None` if absent):
the reversal of Python `name.rfind('.')`. -/
def revDotIdx (cs : List Char) : Option Nat := cs.reverse.findIdx? (fun c => c = '.')

/-- `pathlib.PurePath.suffix` for a single path component: the part of the
name from its last dot on, provided that dot is neither the first nor the
last character; `""` otherwise. -/
def pathSuffix (name : String) : String :=
  let cs := name.data
  match revDotIdx cs with
  | none => ""
  | some j =>
    let i := cs.length - 1 - j
    if 0 < i ∧ i < cs.length - 1 then String.mk (cs.drop i) else ""

/-- `pathlib.PurePath.stem` for a single path component. -/
def pathStem (name : String) : String :=
  let cs := name.data
  match revDotIdx cs with
  | none => name
  | some j =>
    let i := cs.length - 1 - j
    if 0 < i ∧ i < cs.length - 1 then String.mk (cs.take i) else name

/-- Lines 55-73 of the script. -/
def ROLE_KEYWORDS : List (String × String) :=
  [("controller", "Controller"),
   ("service", "Service"),
   ("repository", "Repository"),
   ("repo", "Repository"),
   ("dao", "Repository"),
   ("handler", "Handler"),
   ("model", "Model"),
   ("entity", "Model"),
   ("dto", "Model"),
   ("vo", "Model"),
   ("schema", "Schema"),
   ("config", "Config"),
   ("util", "Utility"),
   ("helper", "Utility"),
   ("api", "API"),
   ("view", "UI"),
   ("component", "UI")]

/-- The `for keyword, role in ROLE_KEYWORDS` loop of `infer_role`. -/
def roleLookup (lowered : String) : List (String × String) → String
  | [] => "Module"
  | (keyword, role) :: rest =>
    if strContainsSub lowered keyword then role else roleLookup lowered rest

/-- Lines 241-246 of the script; `name` is the file's final path component
(`infer_role` reads only `path.stem`). -/
def infer_role (name : String) : String := roleLookup (pyLower (pathStem name)) ROLE_KEYWORDS

/-- The closed set of role labels the spec enumerates. -/
def roleLabels : List String :=
  ["Controller", "Service", "Repository", "Handler", "Model", "Schema",
   "Config", "Utility", "API", "UI", "Module"]

/-- The whitespace characters stripped by Python `str.strip()` (and matched
by `\s`). -/
def pyIsSpace (c : Char) : Bool :=
  c = ' ' || c = '\t' || c = '\n' || c = '\r' || c = '\x0b' || c = '\x0c' ||
    c = '\x1c' || c = '\x1d' || c = '\x1e' || c = '\x1f' ||
    c = '\x85' || c = '\xa0' || c = '\u1680' ||
    (0x2000 ≤ c.toNat && c.toNat ≤ 0x200a) || c = '\u2028' ||
    c = '\u2029' || c = '\u202f' || c = '\u205f' ||
    c = '\u3000'

/-- `str.strip()` on the character list. -/
def stripList (cs : List Char) : List Char :=
  ((cs.dropWhile pyIsSpace).reverse.dropWhile pyIsSpace).reverse

/-- Python `item.strip()`. -/
def pyStrip (s : String) : String := String.mk (stripList s.data)

/-- Does `s` contain a character that is not whitespace? -/
def hasNonWs (s : String) : Bool := s.data.any (fun c => !(pyIsSpace c))

/-- The `for item in items` loop of `summarize_items` (lines 250-259):
strip, drop blanks, deduplicate against the `seen` accumulator. -/
def summarizeLoop (seen : List String) : List String → List String
  | [] => []
  | item :: rest =>
    let token := pyStrip item
    if token = "" then summarizeLoop seen rest
    else if token ∈ seen then summarizeLoop seen rest
    else token :: summarizeLoop (token :: seen) rest

/-- The `unique` list built by `summarize_items`. -/
def summarizeUnique (items : List String) : List String := summarizeLoop [] items

/-- Lines 249-269 of the script. -/
def summarize_items (items : List String) (lang : String) (maxItems : Nat := 5) : String :=
  let unique := summarizeUnique items
  if unique.isEmpty then
    if lang = "zh" then "待补充（请根据实际代码更新）"
    else "To be completed (update from code as needed)."
  else if maxItems < unique.length then pyJoin ", " (unique.take maxItems) ++ ", ..."
  else pyJoin ", " unique

/-- The locale-specific empty-summary placeholder of lines 261-264, as the
spec describes it. -/
def placeholderFor (lang : String) : String :=
  if lang = "zh" then "待补充（请根据实际代码更新）"
  else "To be completed (update from code as needed)."

/-- Specification-side deduplication: keep the first occurrence of each
token, delete every later duplicate.  Written with explicit fuel so that it
computes by structural recursion; `dedupKeepFirst` supplies enough fuel. -/
def dedupKeepFirstAux : Nat → List String → List String
  | 0, _ => []
  | _, [] => []
  | fuel + 1, a :: rest => a :: dedupKeepFirstAux fuel (rest.filter (fun t => t != a))

/-- First-occurrence-preserving deduplication (the spec's reading of the
`summarize_items` loop). -/
def dedupKeepFirst (l : List String) : List String := dedupKeepFirstAux l.length l

/-- The strip-and-drop-blanks part of the `summarize_items` loop, as the
spec reads it. -/
def cleanTokens (items : List String) : List String :=
  (items.map pyStrip).filter (fun t => t != "")

/-- Lines 354-357 of `infer_outputs`: when the regex extraction phase
(lines 320-352, abstracted here as the already-computed `patternItems`)
found nothing, the file's stem becomes the sole output token, and the token
list is rendered by `summarize_items`. -/
def infer_outputs_render (patternItems : List String) (stem : String) (lang : String) : String :=
  let items := if patternItems.isEmpty then [stem] else patternItems
  summarize_items items lang

/-- Lines 182-183 of the script: `re.search(r"[一-鿿]", text)`. -/
def contains_cjk (text : String) : Bool :=
  text.data.any (fun c => 0x4e00 ≤ c.toNat && c.toNat ≤ 0x9fff)

/-- Lines 186-202 of the script.  A candidate is the read result of one
scanned file (`root/architecture_file` followed by up to 19 `rglob` hits of
the index file name): `none` when the path is missing, not a file, or
unreadable, `some text` otherwise.  The loop returns `"zh"` on the first
CJK-containing candidate, and the fall-through return is `"zh"` as well. -/
def detect_language : List (Option String) → String
  | [] => "zh"
  | none :: rest => detect_language rest
  | some text :: rest => if contains_cjk text then "zh" else detect_language rest

mutual
/-- A filesystem entry as seen by `os.walk`: a file name, or a directory
name with its children.  `FsForest` is the sibling list, kept mutual with
`FsTree` so that every traversal below is structurally recursive. -/
inductive FsTree : Type where
  | file : String → FsTree
  | dir : String → FsForest → FsTree
inductive FsForest : Type where
  | nil : FsForest
  | cons : FsTree → FsForest → FsForest
end

/-- Build a forest from a list of trees. -/
def FsForest.ofList : List FsTree → FsForest
  | [] => FsForest.nil
  | t :: ts => FsForest.cons t (FsForest.ofList ts)

/-- Line 213 of the script: a directory is descended into iff its name is
not in the ignore set and does not start with `"."`. -/
def dirAllowed (ignored : List String) (name : String) : Bool :=
  !(ignored.contains name) && !(strStartsWith name ".")

mutual
/-- The `os.walk` loop of `collect_source_files` (lines 211-219): `walkTree`
handles one entry, `walkForest` the sibling list of a directory.  Results
are paths as segment lists relative to the walk root (the final
`Path.resolve()` only absolutises them).  `os.walk` emission order is
unspecified; the script sorts afterwards. -/
def walkTree (exts ignored : List String) : FsTree → List (List String)
  | FsTree.file name =>
    if exts.contains (pyLower (pathSuffix name)) then [[name]] else []
  | FsTree.dir name children =>
    if dirAllowed ignored name then
      (walkForest exts ignored children).map (fun p => name :: p)
    else []
def walkForest (exts ignored : List String) : FsForest → List (List String)
  | FsForest.nil => []
  | FsForest.cons t rest => walkTree exts ignored t ++ walkForest exts ignored rest
end

/-- Lexicographic comparison of character lists. -/
def charsLe : List Char → List Char → Bool
  | [], _ => true
  | _ :: _, [] => false
  | a :: as, b :: bs => if a < b then true else if b < a then false else charsLe as bs

/-- Lexicographic comparison of path segment lists (the order `sorted` uses
on `Path` objects: componentwise string comparison). -/
def segsLe : List String → List String → Bool
  | [], _ => true
  | _ :: _, [] => false
  | a :: as, b :: bs => if a = b then segsLe as bs else charsLe a.data b.data

/-- Insertion into a sorted list of paths. -/
def insertSorted (p : List String) : List (List String) → List (List String)
  | [] => [p]
  | q :: rest => if segsLe p q then p :: q :: rest else q :: insertSorted p rest

/-- Insertion sort realising line 220's `sorted(source_files)`. -/
def sortPaths : List (List String) → List (List String)
  | [] => []
  | p :: rest => insertSorted p (sortPaths rest)

/-- Lines 205-220 of the script, on the children of the root directory. -/
def collect_source_files (exts ignored : List String) (rootChildren : FsForest) :
    List (List String) :=
  sortPaths (walkForest exts ignored rootChildren)

mutual
/-- Is there a file named `fname` under the chain of directories `dirs`
starting from the entries of the forest? -/
def findsInTree (dirs : List String) (fname : String) : FsTree → Bool
  | FsTree.file n => match dirs with | [] => n = fname | _ :: _ => false
  | FsTree.dir n cs =>
    match dirs with
    | [] => false
    | d :: ds => (n = d) && findsFile ds fname cs
def findsFile (dirs : List String) (fname : String) : FsForest → Bool
  | FsForest.nil => false
  | FsForest.cons t rest => findsInTree dirs fname t || findsFile dirs fname rest
end

/-- Lines 423-442 of the script, with the I/O abstracted to the returned
action string: `existing` is the on-disk content (`none` when the file does
not exist; the script then compares against `""`).  Dry-run mode and normal
mode return the same action for a differing file, so the flag is dropped. -/
def write_if_changed_action (existing : Option String) (newContent : String) : String :=
  let oldContent := existing.getD ""
  if oldContent = newContent then "unchanged"
  else
    match existing with
    | some _ => "update"
    | none => "create"

/-- Is this character matched by the regex class `[-\w.]`?  (`\w` is
ASCII-approximated, like the other text predicates in this file; every
encoding name the coding-comment regex is meant to hit is ASCII.) -/
def isWordDashDot (c : Char) : Bool := c.isAlphanum || c = '_' || c = '-' || c = '.'

/-- After `coding[:=]` was consumed: the regex tail `\s*[-\w.]+` needs at
least one word character after optional whitespace. -/
def codingWord (cs : List Char) : Bool :=
  match cs.dropWhile pyIsSpace with
  | c :: _ => isWordDashDot c
  | [] => false

/-- The `[:=]\s*[-\w.]+` part following `coding`. -/
def codingTail (cs : List Char) : Bool :=
  match cs with
  | c :: rest => if c = ':' || c = '=' then codingWord rest else false
  | [] => false

/-- Scan for `.*coding[:=]\s*[-\w.]+`: try `coding` at each position whose
preceding characters are all non-newline (`.` does not match a newline). -/
def isCodingScan : List Char → Bool
  | [] => false
  | c :: rest =>
    (if listStartsWith "coding".data (c :: rest) then codingTail ((c :: rest).drop 6)
     else false) ||
      (if c = '\n' then false else isCodingScan rest)

/-- Line 413 of the script: `re.match(r"#.*coding[:=]\s*[-\w.]+", line)`
viewed as a Boolean (only its truthiness is used). -/
def isCodingComment (line : String) : Bool :=
  match line.data with
  | '#' :: rest => isCodingScan rest
  | _ => false

/-- The `index` computed on lines 410-414: 1 past a leading shebang line,
plus 1 past an encoding-declaration comment right after it. -/
def pyHeaderIdx (ls : List String) : Nat :=
  let i0 := if strStartsWith (ls.headD "") "#!" then 1 else 0
  if isCodingComment ((ls.get? i0).getD "") then i0 + 1 else i0

/-- Lines 407-420 of the script.  `name` is the file's final path
component (`insert_header` reads only `path.suffix`). -/
def insert_header (name : String) (content header : String) : String :=
  if pyLower (pathSuffix name) = ".py" then
    let ls := splitlinesKeepends content
    let idx := pyHeaderIdx ls
    let pre := pyConcat (ls.take idx)
    let suf := pyConcat (ls.drop idx)
    let spacer := if pre = "" then "" else if strEndsWith pre "\n" then "" else "\n"
    pre ++ spacer ++ header ++ "\n\n" ++ suf
  else header ++ "\n\n" ++ content

/-- Lines 360-367 of the script.  `relParent` is
`path.parent.relative_to(root).as_posix()`. -/
def infer_position (name relParent lang : String) : String :=
  let role := infer_role name
  let rel := if relParent = "." then "root" else relParent
  if lang = "zh" then "位于 " ++ rel ++ "，作为 " ++ role ++ " 层组件。"
  else "Located in " ++ rel ++ ", serving as a " ++ role ++ " layer component."

/-- Lines 370-404 of the script.  `inputs` and `outputs` are the strings
returned by `infer_inputs`/`infer_outputs` (their regex extraction phase is
abstracted; the rendering of extracted tokens is `summarize_items` /
`infer_outputs_render` above). -/
def build_header (name : String) (inputs outputs : String) (relParent lang : String) : String :=
  let position := infer_position name relParent lang
  let sync :=
    if lang = "zh" then "文件变更时同步更新本文件头与目录 INDEX.md。"
    else "Update this header and folder INDEX.md when this file changes."
  let ext := pyLower (pathSuffix name)
  if ext = ".py" then
    "\"\"\"\n@input " ++ inputs ++ "\n@output " ++ outputs ++ "\n@position " ++ position ++
      "\n@doc-sync " ++ sync ++ "\n\"\"\""
  else if ext = ".go" then
    "// @input " ++ inputs ++ "\n// @output " ++ outputs ++ "\n// @position " ++ position ++
      "\n// @doc-sync " ++ sync
  else
    "/**\n * @input " ++ inputs ++ "\n * @output " ++ outputs ++ "\n * @position " ++
      position ++ "\n * @doc-sync " ++ sync ++ "\n */"

/-- A module-path token captured by the `require\(...\)` regex of
`infer_inputs` from `c1SourceText` below: the character class `[^'\"]+`
matches newlines, so the captured path contains 100 of them. -/
def c1BadToken : String := String.mk ('a' :: (List.replicate 100 '\n' ++ ['b']))

/-- A single-file JavaScript tree for claim C1: the string literal inside
`require("...")` spans 101 source lines. -/
def c1SourceText : String := "const x = require(\"" ++ c1BadToken ++ "\");"

/-- The header the first bootstrap run builds for `m.js` (language `"zh"`,
the value `detect_language` always returns): inputs are the single captured
token, no output pattern matches so the stem `"m"` is the fallback output,
and the file sits directly in the root. -/
def c1Header : String :=
  build_header "m.js" (summarize_items [c1BadToken] "zh") (infer_outputs_render [] "m" "zh")
    "." "zh"

/-- The content of `m.js` after the first run. -/
def c1AfterFirstRun : String := insert_header "m.js" c1SourceText c1Header

theorem listStartsWith_iff (p l : List Char) :
    listStartsWith p l = true ↔ ∃ t, l = p ++ t := by
  induction p generalizing l with
  | nil => simp [listStartsWith]
  | cons a as ih =>
    cases l with
    | nil =>
      simp only [listStartsWith, Bool.false_eq_true, false_iff]
      rintro ⟨t, ht⟩
      exact List.cons_ne_nil a (as ++ t) ht.symm
    | cons b bs =>
      by_cases hab : a = b
      · subst hab
        have hstep : listStartsWith (a :: as) (a :: bs) = listStartsWith as bs := by
          simp [listStartsWith]
        rw [hstep, ih]
        constructor
        · rintro ⟨t, ht⟩; exact ⟨t, by rw [ht]; rfl⟩
        · rintro ⟨t, ht⟩
          injection ht with h1 h2
          exact ⟨t, h2⟩
      · simp only [listStartsWith, if_neg hab, Bool.false_eq_true, false_iff]
        rintro ⟨t, ht⟩
        injection ht with h1 h2
        exact hab h1.symm

theorem listContainsSub_iff (sub l : List Char) :
    listContainsSub sub l = true ↔ ∃ s t, l = s ++ sub ++ t := by
  induction l with
  | nil =>
    simp only [listContainsSub, listStartsWith_iff]
    constructor
    · rintro ⟨t, ht⟩; exact ⟨[], t, by simpa using ht⟩
    · rintro ⟨s, t, ht⟩
      rcases List.append_eq_nil.mp ht.symm with ⟨h1, h2⟩
      rcases List.append_eq_nil.mp h1 with ⟨h3, h4⟩
      exact ⟨[], by simp [h4]⟩
  | cons c cs ih =>
    simp only [listContainsSub, Bool.or_eq_true, listStartsWith_iff, ih]
    constructor
    · rintro (⟨t, ht⟩ | ⟨s, t, ht⟩)
      · exact ⟨[], t, by simpa using ht⟩
      · exact ⟨c :: s, t, by simp [ht]⟩
    · rintro ⟨s, t, ht⟩
      cases s with
      | nil => exact Or.inl ⟨t, by simpa using ht⟩
      | cons s0 s' =>
        injection ht with h1 h2
        exact Or.inr ⟨s', t, h2⟩

theorem strContainsSub_iff (s sub : String) :
    strContainsSub s sub = true ↔ ∃ pre post, s.data = pre ++ sub.data ++ post :=
  listContainsSub_iff sub.data s.data

/-- C2.  `has_complete_header(content, K)` holds iff, in the lowered
concatenation of the first `K` lines, every required tag occurs as a
contiguous substring and at least one sync tag does; and a content whose
first `K` lines carry only two of the three required tags (here `@input`
and `@output`, together with a sync tag) is reported incomplete. -/
theorem c2_has_complete_header_iff (content : String) (maxHeaderLines : Nat)
    (hK : 0 < maxHeaderLines) :
    (has_complete_header content maxHeaderLines = true ↔
      ((∀ tag ∈ REQUIRED_HEADER_TAGS, ∃ pre post,
          (headerSnippet content maxHeaderLines).data = pre ++ tag.data ++ post) ∧
        (∃ tag ∈ SYNC_TAGS, ∃ pre post,
          (headerSnippet content maxHeaderLines).data = pre ++ tag.data ++ post))) ∧
      has_complete_header "@input x @output y @doc-sync z" maxHeaderLines = false := by
  constructor
  · simp only [has_complete_header, Bool.and_eq_true, List.all_eq_true, List.any_eq_true,
      strContainsSub_iff]
  · have hsplit : splitlines "@input x @output y @doc-sync z" =
        ["@input x @output y @doc-sync z"] := by decide
    have htake : (splitlines "@input x @output y @doc-sync z").take maxHeaderLines =
        ["@input x @output y @doc-sync z"] := by
      rw [hsplit]
      exact List.take_of_length_le (by simpa using hK)
    simp only [has_complete_header, headerSnippet, htake]
    decide

theorem c2_has_complete_header_iff_witness :
    has_complete_header "@input x @output y @doc-sync z" 80 = false :=
  (c2_has_complete_header_iff "@input x @output y @doc-sync z" 80 (by decide)).2

theorem roleLookup_mem (lowered : String) (kws : List (String × String)) :
    roleLookup lowered kws ∈ kws.map Prod.snd ++ ["Module"] := by
  induction kws with
  | nil => simp [roleLookup]
  | cons p rest ih =>
    obtain ⟨k, r⟩ := p
    by_cases h : strContainsSub lowered k = true
    · simp [roleLookup, h]
    · simp only [roleLookup, if_neg h]
      simpa using List.mem_append.mp ih |>.elim (fun h => Or.inr (Or.inl h))
        (fun h => Or.inr (Or.inr h))

theorem roleLookup_first (lowered : String) (kws : List (String × String)) :
    ∀ i, (h : i < kws.length) →
      strContainsSub lowered (kws.get ⟨i, h⟩).1 = true →
      (∀ j, (hj : j < i) →
        strContainsSub lowered (kws.get ⟨j, Nat.lt_trans hj h⟩).1 = false) →
      roleLookup lowered kws = (kws.get ⟨i, h⟩).2 := by
  induction kws with
  | nil => intro i h; exact absurd h (by simp)
  | cons p rest ih =>
    intro i h hmatch hbefore
    cases i with
    | zero =>
      obtain ⟨k, r⟩ := p
      have hm : strContainsSub lowered k = true := hmatch
      show roleLookup lowered ((k, r) :: rest) = r
      simp [roleLookup, hm]
    | succ n =>
      have h0 : strContainsSub lowered p.1 = false := hbefore 0 (Nat.succ_pos n)
      have : roleLookup lowered (p :: rest) = roleLookup lowered rest := by
        obtain ⟨k, r⟩ := p
        simp only [roleLookup]
        exact if_neg (by simp_all)
      rw [this]
      exact ih n (Nat.lt_of_succ_lt_succ h) hmatch
        (fun j hj => hbefore (j + 1) (Nat.succ_lt_succ hj))

theorem roleLookup_none (lowered : String) (kws : List (String × String))
    (h : ∀ p ∈ kws, strContainsSub lowered p.1 = false) :
    roleLookup lowered kws = "Module" := by
  induction kws with
  | nil => rfl
  | cons p rest ih =>
    obtain ⟨k, r⟩ := p
    simp only [roleLookup]
    rw [if_neg (by simpa using h (k, r) (by simp))]
    exact ih (fun q hq => h q (List.mem_cons_of_mem _ hq))

/-- C3.  `infer_role` is total into the closed role set; when the lowered
stem matches the keyword at position `i` of `ROLE_KEYWORDS` and no earlier
keyword, the result is exactly that keyword's label; a stem matching no
keyword yields `"Module"`; and `"user-service-repo"` yields `"Service"`
because `"service"` precedes `"repo"` in the table. -/
theorem c3_infer_role_total_and_ordered (name : String) :
    infer_role name ∈ roleLabels ∧
      (∀ i, (h : i < ROLE_KEYWORDS.length) →
        strContainsSub (pyLower (pathStem name)) (ROLE_KEYWORDS.get ⟨i, h⟩).1 = true →
        (∀ j, (hj : j < i) →
          strContainsSub (pyLower (pathStem name))
            (ROLE_KEYWORDS.get ⟨j, Nat.lt_trans hj h⟩).1 = false) →
        infer_role name = (ROLE_KEYWORDS.get ⟨i, h⟩).2) ∧
      ((∀ p ∈ ROLE_KEYWORDS, strContainsSub (pyLower (pathStem name)) p.1 = false) →
        infer_role name = "Module") ∧
      infer_role "user-service-repo" = "Service" := by
  refine ⟨?_, ?_, ?_, by decide⟩
  · have hmem := roleLookup_mem (pyLower (pathStem name)) ROLE_KEYWORDS
    have hsub : ∀ x ∈ ROLE_KEYWORDS.map Prod.snd ++ ["Module"], x ∈ roleLabels := by decide
    exact hsub _ hmem
  · exact fun i h h1 h2 => roleLookup_first (pyLower (pathStem name)) ROLE_KEYWORDS i h h1 h2
  · exact fun h => roleLookup_none (pyLower (pathStem name)) ROLE_KEYWORDS h

theorem c3_infer_role_witness :
    infer_role "data_dao" = "Repository" ∧ infer_role "plainfile" = "Module" := by
  constructor
  · have h := (c3_infer_role_total_and_ordered "data_dao").2.1 4 (by decide) (by decide)
      (by decide)
    simpa using h
  · exact (c3_infer_role_total_and_ordered "plainfile").2.2.1 (by decide)

/-- C8.  The `auto` locale resolution returns `"zh"` for every list of
scanned candidates — whether candidates are missing (`none`), CJK-free, or
CJK-bearing — so auto-detection never resolves to `"en"`. -/
theorem c8_detect_language_always_zh (candidates : List (Option String)) :
    detect_language candidates = "zh" ∧ ("zh" : String) ≠ "en" := by
  refine ⟨?_, by decide⟩
  induction candidates with
  | nil => rfl
  | cons c rest ih =>
    cases c with
    | none => simpa [detect_language] using ih
    | some text =>
      by_cases h : contains_cjk text = true
      · simp [detect_language, h]
      · simpa [detect_language, h] using ih

theorem dedupKeepFirstAux_eq (fuel₁ : Nat) :
    ∀ (fuel₂ : Nat) (l : List String), l.length ≤ fuel₁ → l.length ≤ fuel₂ →
      dedupKeepFirstAux fuel₁ l = dedupKeepFirstAux fuel₂ l := by
  induction fuel₁ with
  | zero =>
    intro fuel₂ l h1 h2
    have hl : l = [] := List.length_eq_zero.mp (Nat.le_zero.mp h1)
    subst hl
    cases fuel₂ <;> rfl
  | succ f ih =>
    intro fuel₂ l h1 h2
    cases l with
    | nil => cases fuel₂ <;> rfl
    | cons a rest =>
      cases fuel₂ with
      | zero => exact absurd h2 (by simp)
      | succ f₂ =>
        show a :: dedupKeepFirstAux f (rest.filter (fun t => t != a)) =
          a :: dedupKeepFirstAux f₂ (rest.filter (fun t => t != a))
        have hlen := List.length_filter_le (fun t => t != a) rest
        exact congrArg (a :: ·)
          (ih f₂ _ (Nat.le_trans hlen (Nat.le_of_succ_le_succ h1))
            (Nat.le_trans hlen (Nat.le_of_succ_le_succ h2)))

theorem dedupKeepFirst_cons (a : String) (rest : List String) :
    dedupKeepFirst (a :: rest) = a :: dedupKeepFirst (rest.filter (fun t => t != a)) := by
  show dedupKeepFirstAux (rest.length + 1) (a :: rest) = _
  show a :: dedupKeepFirstAux rest.length (rest.filter (fun t => t != a)) = _
  exact congrArg (a :: ·)
    (dedupKeepFirstAux_eq rest.length _ _ (List.length_filter_le _ _) (Nat.le_refl _))

theorem summarizeLoop_eq_dedup (items : List String) :
    ∀ seen : List String,
      summarizeLoop seen items =
        dedupKeepFirst ((cleanTokens items).filter (fun t => !(seen.contains t))) := by
  induction items with
  | nil => intro seen; rfl
  | cons item rest ih =>
    intro seen
    by_cases h0 : pyStrip item = ""
    · have hclean : cleanTokens (item :: rest) = cleanTokens rest := by
        simp [cleanTokens, List.filter_cons, h0]
      simp only [summarizeLoop, h0, if_pos rfl, hclean]
      exact ih seen
    · have hclean : cleanTokens (item :: rest) = pyStrip item :: cleanTokens rest := by
        simp [cleanTokens, List.filter_cons, h0]
      by_cases h1 : pyStrip item ∈ seen
      · have hcont : seen.contains (pyStrip item) = true := by
          simpa using h1
        simp only [summarizeLoop, if_neg h0, if_pos h1, hclean, List.filter_cons, hcont,
          Bool.not_true]
        exact ih seen
      · have hcont : seen.contains (pyStrip item) = false := by
          simpa using h1
        simp only [summarizeLoop, if_neg h0, if_neg h1, hclean, List.filter_cons, hcont,
          Bool.not_false, eq_self_iff_true, if_true]
        rw [dedupKeepFirst_cons, List.filter_filter, ih (pyStrip item :: seen)]
        have hpred : ∀ t : String,
            (t != pyStrip item && !(seen.contains t)) =
              !((pyStrip item :: seen).contains t) := by
          intro t
          by_cases ht : t = pyStrip item <;> simp [ht, List.contains_cons, Bool.not_or, bne]
        congr 2
        exact List.filter_congr (fun t _ => (hpred t).symm)

theorem summarizeUnique_eq_dedup (items : List String) :
    summarizeUnique items = dedupKeepFirst (cleanTokens items) := by
  have h := summarizeLoop_eq_dedup items []
  have hfilter : (cleanTokens items).filter (fun t => !(([] : List String).contains t)) =
      cleanTokens items := by
    simp
  rw [summarizeUnique, h, hfilter]

/-- C4.  With strictly more than 5 unique cleaned tokens, `summarize_items`
renders exactly the first five (in first-occurrence order) joined by
`", "`, followed by the single ellipsis marker `", ..."` and nothing more;
with a nonempty list of at most 5 unique tokens it renders exactly the
comma-join, with no ellipsis appended. -/
theorem c4_summarize_truncation (items : List String) (lang : String) :
    (5 < (dedupKeepFirst (cleanTokens items)).length →
      summarize_items items lang =
        pyJoin ", " ((dedupKeepFirst (cleanTokens items)).take 5) ++ ", ...") ∧
      (dedupKeepFirst (cleanTokens items) ≠ [] →
        (dedupKeepFirst (cleanTokens items)).length ≤ 5 →
        summarize_items items lang = pyJoin ", " (dedupKeepFirst (cleanTokens items))) := by
  have hu : summarizeUnique items = dedupKeepFirst (cleanTokens items) :=
    summarizeUnique_eq_dedup items
  constructor
  · intro h
    have hne : (dedupKeepFirst (cleanTokens items)).isEmpty = false := by
      cases hd : dedupKeepFirst (cleanTokens items) with
      | nil => rw [hd] at h; simp at h
      | cons x xs => rfl
    simp only [summarize_items, hu]
    rw [if_neg (by simp [hne]), if_pos h]
  · intro hne hlen
    have hne' : (dedupKeepFirst (cleanTokens items)).isEmpty = false := by
      cases hd : dedupKeepFirst (cleanTokens items) with
      | nil => exact absurd hd hne
      | cons x xs => rfl
    simp only [summarize_items, hu]
    rw [if_neg (by simp [hne']), if_neg (by omega)]

theorem c4_summarize_truncation_witness :
    summarize_items ["b", "a", "b", "c", "d", "e", "f"] "en" = "b, a, c, d, e, ..." := by
  have h := (c4_summarize_truncation ["b", "a", "b", "c", "d", "e", "f"] "en").1 (by decide)
  rw [h]
  decide

theorem dropWhile_ne_head (p : Char → Bool) (l : List Char) :
    ∀ a t, l.dropWhile p = a :: t → p a = false := by
  induction l with
  | nil => intro a t h; exact absurd h (by simp)
  | cons x xs ih =>
    intro a t h
    rw [List.dropWhile_cons] at h
    by_cases hx : p x = true
    · rw [if_pos hx] at h; exact ih a t h
    · rw [if_neg hx] at h
      injection h with h1 _
      subst h1
      exact Bool.not_eq_true _ |>.mp hx

theorem dropWhile_eq_self_of_head (p : Char → Bool) (l : List Char)
    (h : ∀ a t, l = a :: t → p a = false) : l.dropWhile p = l := by
  cases l with
  | nil => rfl
  | cons a t => rw [List.dropWhile_cons, if_neg (by simp [h a t rfl])]

theorem getLast?_dropWhile (p : Char → Bool) (l : List Char) :
    l.dropWhile p ≠ [] → (l.dropWhile p).getLast? = l.getLast? := by
  induction l with
  | nil => intro h; exact absurd rfl h
  | cons x xs ih =>
    intro h
    rw [List.dropWhile_cons]
    by_cases hx : p x = true
    · rw [List.dropWhile_cons, if_pos hx] at h
      rw [if_pos hx, ih h]
      cases xs with
      | nil => exact absurd rfl h
      | cons y ys => exact (List.getLast?_cons_cons).symm
    · rw [if_neg hx]

theorem stripList_head_not (cs : List Char) :
    ∀ a t, stripList cs = a :: t → pyIsSpace a = false := by
  intro a t h
  have h1 : (stripList cs).head? = some a := by rw [h]; rfl
  rw [stripList] at h1
  rw [List.head?_reverse] at h1
  have hne : ((cs.dropWhile pyIsSpace).reverse.dropWhile pyIsSpace) ≠ [] := by
    intro hnil
    rw [stripList, hnil] at h
    exact List.cons_ne_nil a t h.symm
  rw [getLast?_dropWhile pyIsSpace _ hne, List.getLast?_reverse] at h1
  cases hd : cs.dropWhile pyIsSpace with
  | nil => rw [hd] at h1; exact absurd h1 (by simp)
  | cons b bs =>
    rw [hd] at h1
    have hb : b = a := by simpa using h1
    subst hb
    exact dropWhile_ne_head pyIsSpace cs b bs hd

theorem stripList_idem (cs : List Char) : stripList (stripList cs) = stripList cs := by
  have h1 : (stripList cs).dropWhile pyIsSpace = stripList cs :=
    dropWhile_eq_self_of_head pyIsSpace _ (stripList_head_not cs)
  have h2 : (stripList cs).reverse.dropWhile pyIsSpace = (stripList cs).reverse := by
    rw [stripList, List.reverse_reverse]
    apply dropWhile_eq_self_of_head
    intro a t h
    exact dropWhile_ne_head pyIsSpace _ a t (by rw [← h])
  rw [stripList, h1, h2, List.reverse_reverse]

theorem pyStrip_idem (s : String) : pyStrip (pyStrip s) = pyStrip s := by
  show String.mk (stripList (stripList s.data)) = String.mk (stripList s.data)
  rw [stripList_idem]

theorem stripList_eq_nil_iff (cs : List Char) :
    stripList cs = [] ↔ ∀ c ∈ cs, pyIsSpace c = true := by
  rw [stripList, List.reverse_eq_nil_iff, List.dropWhile_eq_nil_iff]
  constructor
  · intro h c hc
    by_cases hmem : c ∈ cs.dropWhile pyIsSpace
    · exact h c (by simpa using hmem)
    · have hsplit := List.takeWhile_append_dropWhile pyIsSpace cs
      have : c ∈ cs.takeWhile pyIsSpace ++ cs.dropWhile pyIsSpace := by rw [hsplit]; exact hc
      rcases List.mem_append.mp this with h1 | h1
      · exact List.mem_takeWhile_imp h1
      · exact absurd h1 hmem
  · intro h c hc
    refine h c ?_
    have hsub : ∀ x ∈ cs.dropWhile pyIsSpace, x ∈ cs := by
      intro x hx
      have hsplit := List.takeWhile_append_dropWhile pyIsSpace cs
      rw [← hsplit]
      exact List.mem_append.mpr (Or.inr hx)
    exact hsub c (by simpa using hc)

theorem pyStrip_eq_empty_iff (s : String) :
    pyStrip s = "" ↔ hasNonWs s = false := by
  have hmk : pyStrip s = "" ↔ stripList s.data = [] := by
    constructor
    · intro h; exact congrArg String.data h
    · intro h
      show String.mk (stripList s.data) = ""
      rw [h]
  rw [hmk, stripList_eq_nil_iff, hasNonWs]
  simp

theorem summarizeLoop_mem (items : List String) :
    ∀ seen t, t ∈ summarizeLoop seen items → pyStrip t = t ∧ t ≠ "" ∧ t ∉ seen := by
  induction items with
  | nil => intro seen t h; exact absurd h (by simp [summarizeLoop])
  | cons item rest ih =>
    intro seen t h
    by_cases h0 : pyStrip item = ""
    · rw [summarizeLoop, if_pos h0] at h
      exact ih seen t h
    · by_cases h1 : pyStrip item ∈ seen
      · rw [summarizeLoop, if_neg h0, if_pos h1] at h
        exact ih seen t h
      · rw [summarizeLoop, if_neg h0, if_neg h1] at h
        rcases List.mem_cons.mp h with h2 | h2
        · subst h2
          exact ⟨pyStrip_idem item, h0, h1⟩
        · obtain ⟨ha, hb, hc⟩ := ih (pyStrip item :: seen) t h2
          exact ⟨ha, hb, fun hs => hc (List.mem_cons_of_mem _ hs)⟩

theorem summarizeLoop_nodup (items : List String) :
    ∀ seen, (summarizeLoop seen items).Nodup := by
  induction items with
  | nil => intro seen; simp [summarizeLoop]
  | cons item rest ih =>
    intro seen
    by_cases h0 : pyStrip item = ""
    · rw [summarizeLoop, if_pos h0]; exact ih seen
    · by_cases h1 : pyStrip item ∈ seen
      · rw [summarizeLoop, if_neg h0, if_pos h1]; exact ih seen
      · rw [summarizeLoop, if_neg h0, if_neg h1]
        rw [List.nodup_cons]
        refine ⟨fun hmem => ?_, ih _⟩
        obtain ⟨-, -, hc⟩ := summarizeLoop_mem rest _ _ hmem
        exact hc (List.mem_cons_self _ _)

theorem summarizeLoop_eq_self (l : List String) :
    ∀ seen, (∀ t ∈ l, pyStrip t = t ∧ t ≠ "" ∧ t ∉ seen) → l.Nodup →
      summarizeLoop seen l = l := by
  induction l with
  | nil => intro seen _ _; rfl
  | cons a rest ih =>
    intro seen h hnodup
    obtain ⟨ha1, ha2, ha3⟩ := h a (List.mem_cons_self a rest)
    rw [summarizeLoop]
    rw [if_neg (by rw [ha1]; exact ha2), if_neg (by rw [ha1]; exact ha3), ha1]
    rw [List.nodup_cons] at hnodup
    refine congrArg (a :: ·) (ih (a :: seen) ?_ hnodup.2)
    intro t ht
    obtain ⟨h1, h2, h3⟩ := h t (List.mem_cons_of_mem _ ht)
    refine ⟨h1, h2, fun hmem => ?_⟩
    rcases List.mem_cons.mp hmem with h4 | h4
    · subst h4; exact hnodup.1 ht
    · exact h3 h4

theorem summarizeUnique_idem (items : List String) :
    summarizeUnique (summarizeUnique items) = summarizeUnique items := by
  apply summarizeLoop_eq_self
  · intro t ht
    obtain ⟨h1, h2, -⟩ := summarizeLoop_mem items [] t ht
    exact ⟨h1, h2, by simp⟩
  · exact summarizeLoop_nodup items []

theorem strAppend_ne_empty_right (a b : String) (hb : b ≠ "") : a ++ b ≠ "" := by
  intro h
  have hd := String.ext_iff.mp h
  rw [String.data_append] at hd
  rcases List.append_eq_nil.mp hd with ⟨-, h2⟩
  exact hb (String.ext_iff.mpr h2)

theorem pyJoin_head_ne_empty (sep t : String) (rest : List String) (ht : t ≠ "") :
    pyJoin sep (t :: rest) ≠ "" := by
  show rest.foldl (fun acc x => acc ++ sep ++ x) t ≠ ""
  have key : ∀ (l : List String) (acc : String), acc ≠ "" →
      l.foldl (fun acc x => acc ++ sep ++ x) acc ≠ "" := by
    intro l
    induction l with
    | nil => intro acc h; exact h
    | cons x xs ih =>
      intro acc h
      refine ih (acc ++ sep ++ x) ?_
      intro hcontra
      have hd := String.ext_iff.mp hcontra
      rw [String.data_append, String.data_append] at hd
      rcases List.append_eq_nil.mp hd with ⟨h1, -⟩
      rcases List.append_eq_nil.mp h1 with ⟨h2, -⟩
      exact h (String.ext_iff.mpr h2)
  exact key rest t ht

/-- C5.  `summarize_items` strips every token, drops blank tokens, and
deduplicates preserving first-occurrence order (`summarizeUnique` equals
the specification-side `dedupKeepFirst` of the cleaned tokens); when
nothing survives it returns the locale-specific placeholder, which is never
the empty string; its result is never the empty string; and feeding the
cleaned unique tokens back in reproduces the same rendering. -/
theorem c5_summarize_placeholder (items : List String) (lang : String) :
    summarizeUnique items = dedupKeepFirst (cleanTokens items) ∧
      (summarizeUnique items = [] → summarize_items items lang = placeholderFor lang) ∧
      placeholderFor lang ≠ "" ∧
      summarize_items items lang ≠ "" ∧
      summarize_items items lang = summarize_items (summarizeUnique items) lang := by
  have hplaceholder : placeholderFor lang ≠ "" := by
    by_cases hl : lang = "zh" <;> simp [placeholderFor, hl]
  refine ⟨summarizeUnique_eq_dedup items, ?_, hplaceholder, ?_, ?_⟩
  · intro h
    simp only [summarize_items, h, List.isEmpty_nil, if_pos rfl]
    by_cases hl : lang = "zh" <;> simp [placeholderFor, hl]
  · cases hd : summarizeUnique items with
    | nil =>
      simp only [summarize_items, hd, List.isEmpty_nil, if_pos rfl]
      by_cases hl : lang = "zh" <;> simp [placeholderFor, hl]
    | cons t ts =>
      have ht : t ≠ "" := by
        have := summarizeLoop_mem items [] t (by rw [summarizeUnique] at hd; rw [hd]; simp)
        exact this.2.1
      simp only [summarize_items, hd, List.isEmpty_cons]
      rw [if_neg (by simp)]
      by_cases hlen : 5 < (t :: ts).length
      · rw [if_pos hlen]
        refine strAppend_ne_empty_right _ ", ..." ?_
        decide
      · rw [if_neg hlen]
        exact pyJoin_head_ne_empty ", " t ts ht
  · have hidem := summarizeUnique_idem items
    simp only [summarize_items, hidem]

theorem c5_summarize_placeholder_witness :
    summarize_items ["", "   "] "zh" = placeholderFor "zh" :=
  (c5_summarize_placeholder ["", "   "] "zh").2.1 (by decide)

/-- C6 counterexample.  For the file `"a .py"` (stem `"a "`) with content
matching no output pattern, the rendered summary is the stripped stem
`"a"`, not the stem `"a "` itself, refuting the claim's unqualified
equality. -/
theorem c6_stem_fallback_counterexample :
    ¬ (infer_outputs_render [] "a " "en" = "a ") := by decide

theorem summarizeUnique_single (stem : String) :
    summarizeUnique [stem] = if pyStrip stem = "" then [] else [pyStrip stem] := by
  by_cases h : pyStrip stem = "" <;>
    simp [summarizeUnique, summarizeLoop, h]

/-- C6 amended.  When the extraction phase found no output token, the
file's stem is the sole token and the rendered summary equals
`summarize_items [stem]`; hence it equals the whitespace-stripped stem
whenever the stem contains a non-whitespace character (in particular the
stem itself when the stem is nonempty and has no surrounding whitespace),
and it is the locale placeholder exactly when the stem is empty or
all-whitespace. -/
theorem c6_stem_fallback_amended (stem lang : String) :
    infer_outputs_render [] stem lang = summarize_items [stem] lang ∧
      (hasNonWs stem = true → infer_outputs_render [] stem lang = pyStrip stem) ∧
      (hasNonWs stem = false → infer_outputs_render [] stem lang = placeholderFor lang) ∧
      (pyStrip stem = stem → stem ≠ "" → infer_outputs_render [] stem lang = stem) := by
  have hrender : infer_outputs_render [] stem lang = summarize_items [stem] lang := rfl
  have hstripped : pyStrip stem ≠ "" →
      infer_outputs_render [] stem lang = pyStrip stem := by
    intro h
    rw [hrender]
    simp only [summarize_items, summarizeUnique_single, if_neg h]
    rw [if_neg (by simp), if_neg (by simp)]
    rfl
  refine ⟨hrender, ?_, ?_, ?_⟩
  · intro h
    have hne : pyStrip stem ≠ "" := fun hc => by
      rw [pyStrip_eq_empty_iff] at hc
      rw [h] at hc
      exact Bool.true_eq_false.mp hc
    exact hstripped hne
  · intro h
    have hempty : pyStrip stem = "" := (pyStrip_eq_empty_iff stem).mpr h
    rw [hrender]
    simp only [summarize_items, summarizeUnique_single, if_pos hempty, List.isEmpty_nil,
      if_pos rfl]
    by_cases hl : lang = "zh" <;> simp [placeholderFor, hl]
  · intro heq hne
    have h := hstripped (by rw [heq]; exact hne)
    rw [h, heq]

theorem c6_stem_fallback_witness :
    infer_outputs_render [] "checkout" "en" = "checkout" :=
  (c6_stem_fallback_amended "checkout" "en").2.2.2 (by decide) (by decide)

theorem mem_insertSorted (p : List String) (l : List (List String)) :
    ∀ q, q ∈ insertSorted p l ↔ q = p ∨ q ∈ l := by
  induction l with
  | nil => intro q; simp [insertSorted]
  | cons r rest ih =>
    intro q
    by_cases h : segsLe p r = true
    · simp [insertSorted, h]
    · simp only [insertSorted, if_neg h, List.mem_cons, ih q]
      tauto

theorem mem_sortPaths (l : List (List String)) :
    ∀ q, q ∈ sortPaths l ↔ q ∈ l := by
  induction l with
  | nil => intro q; simp [sortPaths]
  | cons p rest ih =>
    intro q
    rw [sortPaths, mem_insertSorted, ih q, List.mem_cons]

mutual
theorem walkTree_prunes (exts ignored : List String) (t : FsTree) :
    ∀ p, p ∈ walkTree exts ignored t → p ≠ [] ∧ ∀ d ∈ p.dropLast,
      ignored.contains d = false ∧ strStartsWith d "." = false := by
  cases t with
  | file name =>
    intro p hp
    rw [walkTree] at hp
    by_cases hc : exts.contains (pyLower (pathSuffix name)) = true
    · rw [if_pos hc] at hp
      have hps : p = [name] := by simpa using hp
      subst hps
      exact ⟨by simp, by simp⟩
    · rw [if_neg hc] at hp
      exact absurd hp (by simp)
  | dir name children =>
    intro p hp
    rw [walkTree] at hp
    by_cases ha : dirAllowed ignored name = true
    · rw [if_pos ha] at hp
      obtain ⟨q, hq, hmap⟩ := List.mem_map.mp hp
      obtain ⟨hqne, hqall⟩ := walkForest_prunes exts ignored children q hq
      subst hmap
      refine ⟨by simp, ?_⟩
      intro d hd
      rw [List.dropLast_cons_of_ne_nil hqne] at hd
      rcases List.mem_cons.mp hd with h1 | h1
      · subst h1
        have ha' := ha
        rw [dirAllowed, Bool.and_eq_true, Bool.not_eq_true', Bool.not_eq_true'] at ha'
        exact ha'
      · exact hqall d h1
    · rw [if_neg ha] at hp
      exact absurd hp (by simp)
theorem walkForest_prunes (exts ignored : List String) (fs : FsForest) :
    ∀ p, p ∈ walkForest exts ignored fs → p ≠ [] ∧ ∀ d ∈ p.dropLast,
      ignored.contains d = false ∧ strStartsWith d "." = false := by
  cases fs with
  | nil => intro p hp; exact absurd hp (by simp [walkForest])
  | cons t rest =>
    intro p hp
    rw [walkForest] at hp
    rcases List.mem_append.mp hp with h | h
    · exact walkTree_prunes exts ignored t p h
    · exact walkForest_prunes exts ignored rest p h
end

/-- C7.  No path delivered by `collect_source_files` passes through a
pruned directory: every ancestor directory segment of a collected file path
is outside the ignore set and does not start with `"."`. -/
theorem c7_collect_prunes_ignored (exts ignored : List String) (root : FsForest)
    (p : List String) (hp : p ∈ collect_source_files exts ignored root) :
    ∀ d ∈ p.dropLast, ¬ d ∈ ignored ∧ strStartsWith d "." = false := by
  rw [collect_source_files, mem_sortPaths] at hp
  obtain ⟨-, hall⟩ := walkForest_prunes exts ignored root p hp
  intro d hd
  obtain ⟨h1, h2⟩ := hall d hd
  refine ⟨fun hmem => ?_, h2⟩
  have hc : ignored.contains d = true := by simpa using hmem
  rw [h1] at hc
  exact Bool.false_ne_true hc

theorem c7_collect_prunes_ignored_witness :
    ¬ "src" ∈ (["node_modules"] : List String) ∧ strStartsWith "src" "." = false := by
  have h := c7_collect_prunes_ignored [".py"] ["node_modules"]
    (FsForest.ofList [FsTree.dir "src" (FsForest.ofList [FsTree.file "app.py"])])
    ["src", "app.py"] (by decide)
  exact h "src" (by decide)

mutual
theorem findsInTree_walk (exts ignored : List String) (fname : String)
    (hext : exts.contains (pyLower (pathSuffix fname)) = true) (t : FsTree) :
    ∀ dirs, findsInTree dirs fname t = true →
      (∀ d ∈ dirs, dirAllowed ignored d = true) →
      dirs ++ [fname] ∈ walkTree exts ignored t := by
  cases t with
  | file n =>
    intro dirs hfind hdirs
    cases dirs with
    | nil =>
      have hn : n = fname := by simpa [findsInTree] using hfind
      subst hn
      rw [walkTree, if_pos hext]
      simp
    | cons d ds => exact absurd hfind (by simp [findsInTree])
  | dir n cs =>
    intro dirs hfind hdirs
    cases dirs with
    | nil => exact absurd hfind (by simp [findsInTree])
    | cons d ds =>
      rw [findsInTree, Bool.and_eq_true] at hfind
      obtain ⟨hn, hrec⟩ := hfind
      have hn' : n = d := by simpa using hn
      subst hn'
      rw [walkTree, if_pos (hdirs n (List.mem_cons_self n ds))]
      refine List.mem_map.mpr ⟨ds ++ [fname], ?_, rfl⟩
      exact findsFile_walk exts ignored fname hext cs ds hrec
        (fun d hd => hdirs d (List.mem_cons_of_mem _ hd))
theorem findsFile_walk (exts ignored : List String) (fname : String)
    (hext : exts.contains (pyLower (pathSuffix fname)) = true) (fs : FsForest) :
    ∀ dirs, findsFile dirs fname fs = true →
      (∀ d ∈ dirs, dirAllowed ignored d = true) →
      dirs ++ [fname] ∈ walkForest exts ignored fs := by
  cases fs with
  | nil => intro dirs hfind _; exact absurd hfind (by simp [findsFile])
  | cons t rest =>
    intro dirs hfind hdirs
    rw [findsFile, Bool.or_eq_true] at hfind
    rw [walkForest]
    rcases hfind with h | h
    · exact List.mem_append.mpr (Or.inl (findsInTree_walk exts ignored fname hext t dirs h hdirs))
    · exact List.mem_append.mpr (Or.inr (findsFile_walk exts ignored fname hext rest dirs h hdirs))
end

/-- C10.  Hidden-name filtering applies only to directories: a file whose
name starts with `"."` but whose lowered suffix is in the allow-list, and
which sits under no pruned directory, is collected. -/
theorem c10_hidden_files_included (exts ignored : List String) (root : FsForest)
    (dirs : List String) (fname : String)
    (hfind : findsFile dirs fname root = true)
    (hdirs : ∀ d ∈ dirs, dirAllowed ignored d = true)
    (_hhidden : strStartsWith fname "." = true)
    (hext : exts.contains (pyLower (pathSuffix fname)) = true) :
    dirs ++ [fname] ∈ collect_source_files exts ignored root := by
  rw [collect_source_files, mem_sortPaths]
  exact findsFile_walk exts ignored fname hext root dirs hfind hdirs

theorem c10_hidden_files_included_witness :
    ["src", ".hidden.py"] ∈ collect_source_files [".py"] ["node_modules"]
      (FsForest.ofList [FsTree.dir "src" (FsForest.ofList [FsTree.file ".hidden.py"])]) :=
  c10_hidden_files_included [".py"] ["node_modules"]
    (FsForest.ofList [FsTree.dir "src" (FsForest.ofList [FsTree.file ".hidden.py"])])
    ["src"] ".hidden.py" (by decide) (by decide) (by decide) (by decide)

theorem slkGo_break_nil (c : Char) (acc : List Char) (hbr : pyLineBreak c = true) :
    slkGo [c] acc = [acc.reverse ++ [c]] := by
  show (if pyLineBreak c = true then [acc.reverse ++ [c]] else slkGo [] (c :: acc)) =
    [acc.reverse ++ [c]]
  rw [if_pos hbr]

theorem slkGo_crlf (rest2 acc : List Char) :
    slkGo ('\r' :: '\n' :: rest2) acc = (acc.reverse ++ ['\r', '\n']) :: slkGo rest2 [] := rfl

theorem slkGo_break_cons (c c2 : Char) (rest2 acc : List Char) (hbr : pyLineBreak c = true)
    (hne : ¬(c = '\r' ∧ c2 = '\n')) :
    slkGo (c :: c2 :: rest2) acc = (acc.reverse ++ [c]) :: slkGo (c2 :: rest2) [] := by
  show (if pyLineBreak c = true then
      if c = '\r' ∧ c2 = '\n' then (acc.reverse ++ ['\r', '\n']) :: slkGo rest2 []
      else (acc.reverse ++ [c]) :: slkGo (c2 :: rest2) []
    else slkGo (c2 :: rest2) (c :: acc)) = (acc.reverse ++ [c]) :: slkGo (c2 :: rest2) []
  rw [if_pos hbr, if_neg hne]

theorem slkGo_nobreak (c : Char) (rest acc : List Char) (hbr : ¬ pyLineBreak c = true) :
    slkGo (c :: rest) acc = slkGo rest (c :: acc) := by
  cases rest with
  | nil =>
    show (if pyLineBreak c = true then [acc.reverse ++ [c]] else slkGo [] (c :: acc)) =
      slkGo [] (c :: acc)
    rw [if_neg hbr]
  | cons c2 rest2 =>
    show (if pyLineBreak c = true then
        if c = '\r' ∧ c2 = '\n' then (acc.reverse ++ ['\r', '\n']) :: slkGo rest2 []
        else (acc.reverse ++ [c]) :: slkGo (c2 :: rest2) []
      else slkGo (c2 :: rest2) (c :: acc)) = slkGo (c2 :: rest2) (c :: acc)
    rw [if_neg hbr]

theorem slkGo_flatten (cs acc : List Char) : (slkGo cs acc).flatten = acc.reverse ++ cs := by
  induction cs, acc using slkGo.induct with
  | case1 acc h =>
    have hacc : acc = [] := by simpa using h
    subst hacc
    simp [slkGo]
  | case2 acc h => simp [slkGo, h]
  | case3 c acc hbr =>
    rw [slkGo_break_nil c acc hbr]
    simp
  | case4 c acc hbr c2 rest2 hcr ih =>
    obtain ⟨h1, h2⟩ := hcr
    subst h1
    subst h2
    rw [slkGo_crlf rest2 acc, List.flatten_cons, ih]
    simp
  | case5 c acc hbr c2 rest2 hcr ih =>
    rw [slkGo_break_cons c c2 rest2 acc hbr hcr, List.flatten_cons, ih]
    simp
  | case6 c rest acc hbr ih =>
    rw [slkGo_nobreak c rest acc hbr, ih]
    simp

theorem pyConcat_splitlinesKeepends (s : String) : pyConcat (splitlinesKeepends s) = s := by
  show String.mk (((slkGo s.data []).map String.mk).map String.data).flatten = s
  rw [List.map_map]
  have hmap : (slkGo s.data []).map (String.data ∘ String.mk) = slkGo s.data [] :=
    List.map_id _
  rw [hmap, slkGo_flatten]
  rfl

theorem pyConcat_take_drop (ls : List String) (n : Nat) :
    pyConcat (ls.take n) ++ pyConcat (ls.drop n) = pyConcat ls := by
  apply String.ext_iff.mpr
  rw [String.data_append]
  show ((ls.take n).map String.data).flatten ++ ((ls.drop n).map String.data).flatten = _
  rw [← List.flatten_append, ← List.map_append, List.take_append_drop]
  rfl

theorem get?_zero_headD (ls : List String) : (ls.get? 0).getD "" = ls.headD "" := by
  cases ls <;> rfl

theorem strEmpty_append (s : String) : "" ++ s = s := by
  apply String.ext_iff.mpr
  rw [String.data_append]
  rfl

/-- C9.  For a Python-family file, `insert_header` splits the content at
the index that skips a leading shebang line and then an
encoding-declaration comment line (when each is present), keeps that prelude
verbatim ahead of the header (adding a newline only when the prelude does
not already end in one), and keeps the remainder of the original content
after the header; the two parts concatenate back to the original content,
and with neither special first line the header is prefixed at the very
start. -/
theorem c9_insert_header_prelude (name content header : String)
    (hpy : pyLower (pathSuffix name) = ".py") :
    pyConcat ((splitlinesKeepends content).take (pyHeaderIdx (splitlinesKeepends content))) ++
        pyConcat ((splitlinesKeepends content).drop (pyHeaderIdx (splitlinesKeepends content))) =
        content ∧
      insert_header name content header =
        pyConcat ((splitlinesKeepends content).take (pyHeaderIdx (splitlinesKeepends content))) ++
          (if pyConcat ((splitlinesKeepends content).take
              (pyHeaderIdx (splitlinesKeepends content))) = "" then ""
           else if strEndsWith (pyConcat ((splitlinesKeepends content).take
              (pyHeaderIdx (splitlinesKeepends content)))) "\n" then ""
           else "\n") ++ header ++ "\n\n" ++
          pyConcat ((splitlinesKeepends content).drop (pyHeaderIdx (splitlinesKeepends content))) ∧
      pyHeaderIdx (splitlinesKeepends content) =
        (if strStartsWith ((splitlinesKeepends content).headD "") "#!" then 1 else 0) +
          (if isCodingComment (((splitlinesKeepends content).get?
              (if strStartsWith ((splitlinesKeepends content).headD "") "#!" then 1 else 0)).getD "")
           then 1 else 0) ∧
      (strStartsWith ((splitlinesKeepends content).headD "") "#!" = false →
        isCodingComment ((splitlinesKeepends content).headD "") = false →
        insert_header name content header = header ++ "\n\n" ++ content) := by
  have h2 : insert_header name content header =
      pyConcat ((splitlinesKeepends content).take (pyHeaderIdx (splitlinesKeepends content))) ++
        (if pyConcat ((splitlinesKeepends content).take
            (pyHeaderIdx (splitlinesKeepends content))) = "" then ""
         else if strEndsWith (pyConcat ((splitlinesKeepends content).take
            (pyHeaderIdx (splitlinesKeepends content)))) "\n" then ""
         else "\n") ++ header ++ "\n\n" ++
        pyConcat ((splitlinesKeepends content).drop (pyHeaderIdx (splitlinesKeepends content))) := by
    unfold insert_header
    rw [if_pos hpy]
  refine ⟨?_, h2, ?_, ?_⟩
  · rw [pyConcat_take_drop, pyConcat_splitlinesKeepends]
  · simp only [pyHeaderIdx]
    by_cases hc : isCodingComment (((splitlinesKeepends content).get?
        (if strStartsWith ((splitlinesKeepends content).headD "") "#!" then 1 else 0)).getD "") =
        true
    · rw [if_pos hc, if_pos hc]
    · rw [if_neg hc, if_neg hc]
      omega
  · intro hshebang hcoding
    have hidx : pyHeaderIdx (splitlinesKeepends content) = 0 := by
      unfold pyHeaderIdx
      simp only [hshebang, Bool.false_eq_true, if_false, get?_zero_headD, hcoding]
    rw [h2, hidx]
    simp only [List.take_zero, List.drop_zero,
      show pyConcat ([] : List String) = "" from rfl, eq_self_iff_true, if_true]
    rw [strEmpty_append, strEmpty_append, pyConcat_splitlinesKeepends]

theorem c9_insert_header_prelude_witness :
    insert_header "tool.py" "#!/bin/env python\n# coding: utf-8\nx = 1\n" "HDR" =
      "#!/bin/env python\n# coding: utf-8\n" ++ "HDR" ++ "\n\n" ++ "x = 1\n" := by
  have h := (c9_insert_header_prelude "tool.py" "#!/bin/env python\n# coding: utf-8\nx = 1\n"
    "HDR" (by decide)).2.1
  rw [h]
  decide

/-- C1 (supporting theorem for the code bug).  On the single-file tree
`m.js` with content `c1SourceText` (an import path literal spanning 101
lines), the content written by the first run does not satisfy
`has_complete_header` under the default 80-line window — the `@output`,
`@position` and `@doc-sync` tags sit beyond line 80 — so the second run
rebuilds the same header (the regex extraction of the once-headered content
yields the same token and the same stem fallback), prepends it again, and
`write_if_changed` reports `update`, not `unchanged`.  The original content
is also incomplete, confirming the first run does process the file. -/
theorem c1_second_run_rewrites :
    has_complete_header c1SourceText 80 = false ∧
      has_complete_header c1AfterFirstRun 80 = false ∧
      write_if_changed_action (some c1AfterFirstRun)
        (insert_header "m.js" c1AfterFirstRun c1Header) = "update" := by
  refine ⟨by decide, by decide, by decide⟩
